import Mathlib

/-!
Verification of the Activity AI timesheet core against its specification.

The definitions below are a shallow embedding of the functions in
`src/server/src/index.js` and `src/client/src/views/Activity.vue`.
JavaScript numbers are modelled as exact rationals (`ℚ`); `Math.round`
is modelled as `⌊x + 1/2⌋` (JS rounds half toward +∞).
-/

namespace ActivityAI

/-- JS `Math.round`: round half toward positive infinity. -/
def jsRound (x : ℚ) : ℤ := ⌊x + 1/2⌋

/-- `Math.round(x * 100) / 100` — round to 2 decimal places. -/
def round2 (x : ℚ) : ℚ := (jsRound (x * 100) : ℚ) / 100

/-- `Math.round(x * 10) / 10` — round to 1 decimal place
(also the model of `Number(x.toFixed(1))`, which agrees on ties). -/
def round1 (x : ℚ) : ℚ := (jsRound (x * 10) : ℚ) / 10

/-- `HOURS_PER_DAY` from `index.js`. -/
def HOURS_PER_DAY : ℚ := 7

/-- The `1e-9` floating-point tolerance used by the write-time checks. -/
def EPS : ℚ := 1/1000000000

/-- One proposed time-entry row, as handled by `capRowsToOneDay`
(`index.js`).  All fields other than `temps_passe_h` are opaque strings. -/
structure Row where
  id_ticket : String
  sujet : String
  projet : String
  temps_passe_h : ℚ
  type : String
  impute : String
deriving DecidableEq, Repr

/-- Sum of the `temps_passe_h` fields of a list of rows. -/
def sumHours (rows : List Row) : ℚ := (rows.map Row.temps_passe_h).sum

/-- Index of the row with the currently largest hours value, first
occurrence winning ties — the `for` loops in `capRowsToOneDay` that
compute `idx` (start at 0, replace only on strict increase). -/
def largestIdxAux (l : List ℚ) (i best : ℕ) (bestVal : ℚ) : ℕ :=
  match l with
  | [] => best
  | x :: xs =>
      if bestVal < x then largestIdxAux xs (i+1) i x
      else largestIdxAux xs (i+1) best bestVal

/-- `idx` selection of `capRowsToOneDay`. -/
def largestIdx (l : List Row) : ℕ :=
  match l with
  | [] => 0
  | r :: rs => largestIdxAux (rs.map Row.temps_passe_h) 1 0 r.temps_passe_h

/-- `scaled[idx].temps_passe_h = f(scaled[idx].temps_passe_h)` — in-place
update of one row's hours (out-of-range index leaves the list unchanged;
the source only ever calls it in range). -/
def modifyTemps : List Row → ℕ → (ℚ → ℚ) → List Row
  | [], _, _ => []
  | r :: rs, 0, f => { r with temps_passe_h := f r.temps_passe_h } :: rs
  | r :: rs, i+1, f => r :: modifyTemps rs i f

/-- `cleaned`: clamp a row's hours to be ≥ 0
(`Math.max(0, Number(r.temps_passe_h || 0))`). -/
def clampRow (r : Row) : Row := { r with temps_passe_h := max 0 r.temps_passe_h }

/-- `{...r, temps_passe_h: Math.round(r.temps_passe_h * factor * 100) / 100}`. -/
def scaleRow (factor : ℚ) (r : Row) : Row :=
  { r with temps_passe_h := round2 (r.temps_passe_h * factor) }

/-- The rounding-drift correction of `capRowsToOneDay`: `delta` is the
JS local `Math.round((maxHours - total2) * 100) / 100`, written inline. -/
def applyDelta (scaled : List Row) (maxHours : ℚ) : List Row :=
  if round2 (maxHours - sumHours scaled) ≠ 0 ∧ 0 < scaled.length then
    modifyTemps scaled (largestIdx scaled)
      (fun v => max 0 (round2 (v + round2 (maxHours - sumHours scaled))))
  else scaled

/-- The final safety net of `capRowsToOneDay`: `over` is the JS local
`Math.round((finalTotal - maxHours) * 100) / 100`, written inline. -/
def applySafetyNet (scaled2 : List Row) (maxHours : ℚ) : List Row :=
  if maxHours < sumHours scaled2 ∧ 0 < scaled2.length then
    modifyTemps scaled2 (largestIdx scaled2)
      (fun v => max 0 (round2 (v - round2 (sumHours scaled2 - maxHours))))
  else scaled2

/-- `capRowsToOneDay(rows, maxHours)` from `index.js` lines 337–386
(the spec calls it `capRowsToDailyCeiling`).  The JS locals `cleaned`,
`total` and `factor` are written inline; the two correction passes are
`applyDelta` and `applySafetyNet` above. -/
def capRowsToOneDay (rows : List Row) (maxHours : ℚ) : List Row :=
  if sumHours (rows.map clampRow) ≤ maxHours ∨ sumHours (rows.map clampRow) = 0 then
    rows.map clampRow
  else
    applySafetyNet
      (applyDelta
        ((rows.map clampRow).map
          (scaleRow (maxHours / sumHours (rows.map clampRow)))) maxHours)
      maxHours

/-- A row carrying only hours, used for concrete inputs. -/
def hRow (h : ℚ) : Row := ⟨"", "", "", h, "", ""⟩

/-- A row with its hours field erased; two lists with equal images under
`eraseHours` agree in length, order, and every field except the hours. -/
def eraseHours (r : Row) : Row := { r with temps_passe_h := 0 }

/-! ### Helper lemmas about the capper -/

theorem map_eraseHours_modifyTemps (f : ℚ → ℚ) :
    ∀ (l : List Row) (i : ℕ),
      (modifyTemps l i f).map eraseHours = l.map eraseHours := by
  intro l
  induction l with
  | nil => intro i; rfl
  | cons r rs ih =>
      intro i
      cases i with
      | zero => simp [modifyTemps, eraseHours]
      | succ j => simp [modifyTemps, ih j]

theorem map_eraseHours_clamp (rows : List Row) :
    (rows.map clampRow).map eraseHours = rows.map eraseHours := by
  rw [List.map_map]
  rfl

theorem mem_modifyTemps_nonneg (f : ℚ → ℚ) (hf : ∀ v, 0 ≤ f v) :
    ∀ (l : List Row) (i : ℕ), (∀ r ∈ l, 0 ≤ r.temps_passe_h) →
      ∀ r ∈ modifyTemps l i f, 0 ≤ r.temps_passe_h := by
  intro l
  induction l with
  | nil => intro i _ r hr; cases hr
  | cons a as ih =>
      intro i hl r hr
      cases i with
      | zero =>
          rcases List.mem_cons.1 hr with rfl | hr
          · exact hf _
          · exact hl r (List.mem_cons_of_mem _ hr)
      | succ j =>
          rcases List.mem_cons.1 hr with rfl | hr
          · exact hl r (List.mem_cons_self r as)
          · exact ih j (fun r' h' => hl r' (List.mem_cons_of_mem _ h')) r hr

theorem jsRound_nonneg {x : ℚ} (hx : 0 ≤ x) : 0 ≤ jsRound x := by
  unfold jsRound
  have h : (0:ℚ) ≤ x + 1/2 := by linarith
  exact Int.le_floor.2 (by exact_mod_cast h)

theorem round2_nonneg {x : ℚ} (hx : 0 ≤ x) : 0 ≤ round2 x := by
  unfold round2
  have h : 0 ≤ jsRound (x * 100) := jsRound_nonneg (mul_nonneg hx (by norm_num))
  exact div_nonneg (by exact_mod_cast h) (by norm_num)

theorem applyDelta_nonneg {l : List Row} {maxHours : ℚ}
    (hl : ∀ r ∈ l, 0 ≤ r.temps_passe_h) :
    ∀ r ∈ applyDelta l maxHours, 0 ≤ r.temps_passe_h := by
  unfold applyDelta
  split
  · exact mem_modifyTemps_nonneg _ (fun v => le_max_left _ _) _ _ hl
  · exact hl

theorem applySafetyNet_nonneg {l : List Row} {maxHours : ℚ}
    (hl : ∀ r ∈ l, 0 ≤ r.temps_passe_h) :
    ∀ r ∈ applySafetyNet l maxHours, 0 ≤ r.temps_passe_h := by
  unfold applySafetyNet
  split
  · exact mem_modifyTemps_nonneg _ (fun v => le_max_left _ _) _ _ hl
  · exact hl

/-- Every row produced by the capper has non-negative hours (for a
positive ceiling). -/
theorem capRows_nonneg {maxHours : ℚ} (hC : 0 < maxHours) (rows : List Row) :
    ∀ r ∈ capRowsToOneDay rows maxHours, 0 ≤ r.temps_passe_h := by
  unfold capRowsToOneDay
  have hclamp : ∀ r ∈ rows.map clampRow, 0 ≤ r.temps_passe_h := by
    intro r hr
    rcases List.mem_map.1 hr with ⟨r', _, rfl⟩
    exact le_max_left _ _
  split
  · exact hclamp
  · rename_i hcond
    push_neg at hcond
    have htot : 0 < sumHours (rows.map clampRow) := hC.trans hcond.1
    refine applySafetyNet_nonneg (applyDelta_nonneg ?_)
    intro r hr
    rcases List.mem_map.1 hr with ⟨r', hr', rfl⟩
    simp only [scaleRow]
    exact round2_nonneg (mul_nonneg (hclamp r' hr') (le_of_lt (div_pos hC htot)))

theorem clampRow_of_nonneg {r : Row} (h : 0 ≤ r.temps_passe_h) : clampRow r = r := by
  unfold clampRow
  rw [max_eq_right h]

theorem map_eraseHours_applyDelta (l : List Row) (maxHours : ℚ) :
    (applyDelta l maxHours).map eraseHours = l.map eraseHours := by
  unfold applyDelta
  split
  · exact map_eraseHours_modifyTemps _ _ _
  · rfl

theorem map_eraseHours_applySafetyNet (l : List Row) (maxHours : ℚ) :
    (applySafetyNet l maxHours).map eraseHours = l.map eraseHours := by
  unfold applySafetyNet
  split
  · exact map_eraseHours_modifyTemps _ _ _
  · rfl

/-- If a list's rows are already non-negative and sum to at most the
ceiling, the capper returns the list itself. -/
theorem capRows_fixed_of_nonneg_le {l : List Row} {C : ℚ}
    (hnn : ∀ r ∈ l, 0 ≤ r.temps_passe_h) (hsum : sumHours l ≤ C) :
    capRowsToOneDay l C = l := by
  have hclean : l.map clampRow = l := by
    rw [List.map_congr_left (fun r hr => clampRow_of_nonneg (hnn r hr))]
    exact List.map_id l
  unfold capRowsToOneDay
  rw [hclean, if_pos (Or.inl hsum)]

/-- The five-row input on which the correction passes overshoot. -/
def badRows : List Row := [hRow 1, hRow 1, hRow 1, hRow 1, hRow 1]

/-- All the definitional equations needed to evaluate the capper on
concrete rational inputs. -/
theorem capRows_eval_badRows :
    capRowsToOneDay badRows (1/40)
      = [hRow 0, hRow 0, hRow (1/100), hRow (1/100), hRow (1/100)] := by
  norm_num [capRowsToOneDay, applyDelta, applySafetyNet, sumHours, clampRow,
    scaleRow, round2, jsRound, largestIdx, largestIdxAux, modifyTemps, hRow,
    badRows, Row.mk.injEq]

/-! ### Claim theorems for the row capper -/

/-- C1: the claim says that for every non-empty list of rows with
non-negative hours and every ceiling `C > 0`, the capper's output sums to
at most `C + 1e-9`.  The code violates this (contradicting its own
comment "sécurité finale : ne jamais dépasser maxHours"): on five rows of
1 hour with ceiling `0.025`, both correction passes clamp the adjusted
row at 0 and the output sums to `0.03 > 0.025 + 1e-9`. -/
theorem capRows_ceiling_violation_at_failing_input :
    badRows ≠ [] ∧ (∀ r ∈ badRows, 0 ≤ r.temps_passe_h) ∧ ((0:ℚ) < 1/40) ∧
    sumHours (capRowsToOneDay badRows (1/40)) = 3/100 ∧
    ¬ sumHours (capRowsToOneDay badRows (1/40)) ≤ 1/40 + EPS := by
  have e := capRows_eval_badRows
  refine ⟨by simp [badRows], ?_, by norm_num, ?_, ?_⟩
  · intro r hr
    simp only [badRows, hRow, List.mem_cons, List.not_mem_nil, or_false] at hr
    rcases hr with rfl | rfl | rfl | rfl | rfl <;> norm_num
  · rw [e]; norm_num [sumHours, hRow]
  · rw [e]; norm_num [sumHours, hRow, EPS]

/-- Counterexample to C4: the capper is not idempotent.  On `badRows`
with ceiling `0.025` the first application returns a list summing to
`0.03 > 0.025`, so the second application rescales it again and changes
row 2. -/
theorem capRows_not_idempotent :
    capRowsToOneDay (capRowsToOneDay badRows (1/40)) (1/40)
      ≠ capRowsToOneDay badRows (1/40) := by
  have e1 := capRows_eval_badRows
  have e2 : capRowsToOneDay
      [hRow 0, hRow 0, hRow (1/100), hRow (1/100), hRow (1/100)] (1/40)
      = [hRow 0, hRow 0, hRow 0, hRow (1/100), hRow (1/100)] := by
    norm_num [capRowsToOneDay, applyDelta, applySafetyNet, sumHours, clampRow,
      scaleRow, round2, jsRound, largestIdx, largestIdxAux, modifyTemps, hRow,
      Row.mk.injEq]
  rw [e1, e2]
  simp only [hRow, ne_eq, List.cons.injEq, Row.mk.injEq]
  norm_num

/-- C4 (amended): the capper is idempotent on every input whose first
application's output total does not exceed the ceiling (which the
postcondition intends to always hold, but see
`capRows_not_idempotent`). -/
theorem capRows_idempotent_below_ceiling (rows : List Row) (C : ℚ)
    (hC : 0 < C) (hsum : sumHours (capRowsToOneDay rows C) ≤ C) :
    capRowsToOneDay (capRowsToOneDay rows C) C = capRowsToOneDay rows C :=
  capRows_fixed_of_nonneg_le (capRows_nonneg hC rows) hsum

/-- Witness for `capRows_idempotent_below_ceiling`: the spec's own
scenario `[5,5,4]` at ceiling 7 scales to `[2.5,2.5,2]`, total 7. -/
theorem capRows_idempotent_below_ceiling_witness :
    ((0:ℚ) < 7) ∧ sumHours (capRowsToOneDay [hRow 5, hRow 5, hRow 4] 7) ≤ 7 ∧
    capRowsToOneDay (capRowsToOneDay [hRow 5, hRow 5, hRow 4] 7) 7
      = capRowsToOneDay [hRow 5, hRow 5, hRow 4] 7 := by
  have hs : sumHours (capRowsToOneDay [hRow 5, hRow 5, hRow 4] 7) ≤ 7 := by
    norm_num [capRowsToOneDay, applyDelta, applySafetyNet, sumHours, clampRow,
      scaleRow, round2, jsRound, largestIdx, largestIdxAux, modifyTemps, hRow]
  exact ⟨by norm_num, hs,
    capRows_idempotent_below_ceiling [hRow 5, hRow 5, hRow 4] 7 (by norm_num) hs⟩

/-- C5: if the clamped rows already sum to at most the ceiling, capping
is a no-op — the output is the input with each row's hours replaced by
`max 0 hours` and nothing else changed. -/
theorem capRows_noop_below_ceiling (rows : List Row) (C : ℚ) (_hC : 0 < C)
    (hsum : sumHours (rows.map clampRow) ≤ C) :
    capRowsToOneDay rows C = rows.map clampRow := by
  unfold capRowsToOneDay
  rw [if_pos (Or.inl hsum)]

/-- Witness for `capRows_noop_below_ceiling` at a concrete input with a
negative hour value that must be clamped. -/
theorem capRows_noop_below_ceiling_witness :
    ((0:ℚ) < 7) ∧ sumHours ([hRow 3, hRow (-2)].map clampRow) ≤ 7 ∧
    capRowsToOneDay [hRow 3, hRow (-2)] 7 = [hRow 3, hRow (-2)].map clampRow := by
  have hs : sumHours ([hRow 3, hRow (-2)].map clampRow) ≤ 7 := by
    norm_num [sumHours, clampRow, hRow]
  exact ⟨by norm_num, hs, capRows_noop_below_ceiling [hRow 3, hRow (-2)] 7 (by norm_num) hs⟩

/-- C10: the capper returns a list of the same length, in the same
order, and changes no field other than `temps_passe_h`: erasing the
hours field of the output gives exactly the input with hours erased. -/
theorem capRows_frame (rows : List Row) (maxHours : ℚ) :
    (capRowsToOneDay rows maxHours).length = rows.length ∧
    (capRowsToOneDay rows maxHours).map eraseHours = rows.map eraseHours := by
  have hmap : (capRowsToOneDay rows maxHours).map eraseHours = rows.map eraseHours := by
    unfold capRowsToOneDay
    split
    · exact map_eraseHours_clamp rows
    · rw [map_eraseHours_applySafetyNet, map_eraseHours_applyDelta,
        List.map_map, List.map_map]
      rfl
  refine ⟨?_, hmap⟩
  have hlen := congrArg List.length hmap
  simpa using hlen

/-! ### The persisted store and the three write operations

`upsertDay` (`POST /api/activities/upsertDay`), `appendDay`
(`POST /api/activities/appendDay`) and `upsertDayForUser`
(`POST /api/pm/activities/upsertDayForUser`) from `index.js`.  The
database table `activities` is modelled as a list of rows; rejected
requests return `Except.error`, which carries no store — "writing
nothing" is structural.  Zod's `RowInputSchema` bounds
(`min(0).max(24)` on `temps_passe_h`) are `validRows`; each route's
`superRefine` total check is the explicit comparison with
`HOURS_PER_DAY + 1e-9`. -/

/-- One stored row of the `activities` table (the fields relevant to the
daily-ceiling invariant). -/
structure Activity where
  user_id : String
  day : String
  temps_passe_h : ℚ
deriving DecidableEq, Repr

/-- Total stored hours of a `(user, day)` pair — the DB filter
`.eq("user_id", u).eq("day", d)` followed by the `reduce` over
`temps_passe_h`. -/
def dayTotal : List Activity → String → String → ℚ
  | [], _, _ => 0
  | a :: s, u, d =>
      (if a.user_id = u ∧ a.day = d then a.temps_passe_h else 0) + dayTotal s u d

/-- `.delete().eq("user_id", u).eq("day", d)`. -/
def deleteDay : List Activity → String → String → List Activity
  | [], _, _ => []
  | a :: s, u, d =>
      if a.user_id = u ∧ a.day = d then deleteDay s u d
      else a :: deleteDay s u d

/-- Zod `RowInputSchema`: `temps_passe_h: z.coerce.number().min(0).max(24)`. -/
def validRows (rows : List Row) : Prop :=
  ∀ r ∈ rows, 0 ≤ r.temps_passe_h ∧ r.temps_passe_h ≤ 24

instance : DecidablePred validRows := fun rows =>
  List.decidableBAll _ rows

/-- The insert payload row for user `u`, day `d`. -/
def mkActivity (u d : String) (r : Row) : Activity := ⟨u, d, r.temps_passe_h⟩

/-- A request that was rejected before any write. -/
def isValidationError : Except String (List Activity) → Prop
  | .error _ => True
  | .ok _ => False

/-- `POST /api/activities/upsertDay`: validate, check the new total
against `HOURS_PER_DAY + 1e-9`, then delete-and-insert the day. -/
def upsertDay (s : List Activity) (u d : String) (rows : List Row) :
    Except String (List Activity) :=
  if ¬ validRows rows then .error "bad row"
  else if HOURS_PER_DAY + EPS < sumHours rows then .error "Total journee > 7h interdit"
  else .ok (deleteDay s u d ++ rows.map (mkActivity u d))

/-- `POST /api/activities/appendDay`: validate (`min(1)` rows, row
bounds, added total), then check existing + added against the ceiling
before inserting without deleting. -/
def appendDay (s : List Activity) (u d : String) (rows : List Row) :
    Except String (List Activity) :=
  if rows.length < 1 then .error "rows: min 1"
  else if ¬ validRows rows then .error "bad row"
  else if HOURS_PER_DAY + EPS < sumHours rows then .error "Ajout > 7h interdit"
  else if HOURS_PER_DAY + EPS < dayTotal s u d + sumHours rows then
    .error "Total journee > 7h interdit"
  else .ok (s ++ rows.map (mkActivity u d))

/-- `POST /api/pm/activities/upsertDayForUser` (after the PM role
check): `UpsertForUserSchemaWithLimit` validation, then
delete-and-insert for the target user. -/
def upsertDayForUser (s : List Activity) (targetUserId d : String) (rows : List Row) :
    Except String (List Activity) :=
  if rows.length < 1 then .error "rows: min 1"
  else if ¬ validRows rows then .error "bad row"
  else if HOURS_PER_DAY + EPS < sumHours rows then .error "Total journee > 7h interdit"
  else .ok (deleteDay s targetUserId d ++ rows.map (mkActivity targetUserId d))

/-- The stored invariant: every `(user, day)` total is at most
`HOURS_PER_DAY + 1e-9`. -/
def ceilingInvariant (s : List Activity) : Prop :=
  ∀ u d, dayTotal s u d ≤ HOURS_PER_DAY + EPS

/-! ### Store lemmas -/

theorem dayTotal_append (s t : List Activity) (u d : String) :
    dayTotal (s ++ t) u d = dayTotal s u d + dayTotal t u d := by
  induction s with
  | nil => simp [dayTotal]
  | cons a s ih => simp [dayTotal, ih, add_assoc]

theorem dayTotal_deleteDay_self (s : List Activity) (u d : String) :
    dayTotal (deleteDay s u d) u d = 0 := by
  induction s with
  | nil => rfl
  | cons a s ih =>
      by_cases h : a.user_id = u ∧ a.day = d
      · simp [deleteDay, h, ih]
      · simp [deleteDay, dayTotal, h, ih]

theorem dayTotal_deleteDay_other (s : List Activity) {u d u' d' : String}
    (h : ¬ (u' = u ∧ d' = d)) :
    dayTotal (deleteDay s u d) u' d' = dayTotal s u' d' := by
  induction s with
  | nil => rfl
  | cons a s ih =>
      by_cases hk : a.user_id = u ∧ a.day = d
      · have hne : ¬ (a.user_id = u' ∧ a.day = d') := by
          rintro ⟨h1, h2⟩
          exact h ⟨h1 ▸ hk.1.symm ▸ rfl, h2 ▸ hk.2.symm ▸ rfl⟩
        simp only [deleteDay, if_pos hk, ih, dayTotal, if_neg hne, zero_add]
      · simp only [deleteDay, if_neg hk, dayTotal, ih]

theorem dayTotal_map_mk (rows : List Row) (u d u' d' : String) :
    dayTotal (rows.map (mkActivity u d)) u' d'
      = if u = u' ∧ d = d' then sumHours rows else 0 := by
  induction rows with
  | nil => simp [dayTotal, sumHours]
  | cons r rows ih =>
      by_cases h : u = u' ∧ d = d'
      · simp only [List.map_cons, dayTotal, mkActivity, ih, if_pos h, sumHours,
          List.map_cons, List.sum_cons]
      · simp only [List.map_cons, dayTotal, mkActivity, ih, if_neg h, add_zero]

/-- C2: the daily-ceiling invariant is preserved by every successful
write (`upsertDay`, `appendDay`, `upsertDayForUser`), and every request
whose resulting `(user, day)` total would exceed `7 + 1e-9` is rejected
with a validation error carrying no store (for `appendDay`, the
resulting total counts the already-stored hours plus the added ones). -/
theorem write_ops_preserve_daily_ceiling
    (s : List Activity) (u d tu : String) (rows : List Row)
    (hInv : ceilingInvariant s) :
    (∀ s2, upsertDay s u d rows = .ok s2 → ceilingInvariant s2) ∧
    (∀ s2, appendDay s u d rows = .ok s2 → ceilingInvariant s2) ∧
    (∀ s2, upsertDayForUser s tu d rows = .ok s2 → ceilingInvariant s2) ∧
    (HOURS_PER_DAY + EPS < sumHours rows →
      isValidationError (upsertDay s u d rows) ∧
      isValidationError (upsertDayForUser s tu d rows)) ∧
    (HOURS_PER_DAY + EPS < dayTotal s u d + sumHours rows →
      isValidationError (appendDay s u d rows)) := by
  refine ⟨?_, ?_, ?_, ?_, ?_⟩
  · -- upsertDay preserves the invariant
    intro s2 h
    unfold upsertDay at h
    split at h
    · exact absurd h (by simp)
    · split at h
      · exact absurd h (by simp)
      · rename_i hval hle
        cases h
        intro u' d'
        rw [dayTotal_append, dayTotal_map_mk]
        by_cases hk : u = u' ∧ d = d'
        · rw [if_pos hk, ← hk.1, ← hk.2, dayTotal_deleteDay_self, zero_add]
          exact le_of_not_lt hle
        · rw [if_neg hk, add_zero, dayTotal_deleteDay_other]
          · exact hInv u' d'
          · rintro ⟨h1, h2⟩; exact hk ⟨h1.symm, h2.symm⟩
  · -- appendDay preserves the invariant
    intro s2 h
    unfold appendDay at h
    split at h
    · exact absurd h (by simp)
    · split at h
      · exact absurd h (by simp)
      · split at h
        · exact absurd h (by simp)
        · split at h
          · exact absurd h (by simp)
          · rename_i hfinal
            cases h
            intro u' d'
            rw [dayTotal_append, dayTotal_map_mk]
            by_cases hk : u = u' ∧ d = d'
            · rw [if_pos hk, ← hk.1, ← hk.2]
              exact le_of_not_lt hfinal
            · rw [if_neg hk, add_zero]
              exact hInv u' d'
  · -- upsertDayForUser preserves the invariant
    intro s2 h
    unfold upsertDayForUser at h
    split at h
    · exact absurd h (by simp)
    · split at h
      · exact absurd h (by simp)
      · split at h
        · exact absurd h (by simp)
        · rename_i hle
          cases h
          intro u' d'
          rw [dayTotal_append, dayTotal_map_mk]
          by_cases hk : tu = u' ∧ d = d'
          · rw [if_pos hk, ← hk.1, ← hk.2, dayTotal_deleteDay_self, zero_add]
            exact le_of_not_lt hle
          · rw [if_neg hk, add_zero, dayTotal_deleteDay_other]
            · exact hInv u' d'
            · rintro ⟨h1, h2⟩; exact hk ⟨h1.symm, h2.symm⟩
  · -- over-ceiling upsert requests are rejected
    intro hover
    constructor
    · unfold upsertDay
      rcases Classical.em (¬ validRows rows) with hv | hv
      · rw [if_pos hv]; trivial
      · rw [if_neg hv, if_pos hover]; trivial
    · unfold upsertDayForUser
      rcases Classical.em (rows.length < 1) with h1 | h1
      · rw [if_pos h1]; trivial
      · rw [if_neg h1]
        rcases Classical.em (¬ validRows rows) with hv | hv
        · rw [if_pos hv]; trivial
        · rw [if_neg hv, if_pos hover]; trivial
  · -- over-ceiling append requests are rejected
    intro hover
    unfold appendDay
    rcases Classical.em (rows.length < 1) with h1 | h1
    · rw [if_pos h1]; trivial
    · rw [if_neg h1]
      rcases Classical.em (¬ validRows rows) with hv | hv
      · rw [if_pos hv]; trivial
      · rw [if_neg hv]
        rcases Classical.em (HOURS_PER_DAY + EPS < sumHours rows) with ha | ha
        · rw [if_pos ha]; trivial
        · rw [if_neg ha, if_pos hover]; trivial

/-- Witness for `write_ops_preserve_daily_ceiling`: on the empty store,
a single 8-hour row is rejected by all three write operations. -/
theorem write_ops_preserve_daily_ceiling_witness :
    ceilingInvariant ([] : List Activity) ∧
    isValidationError (upsertDay [] "u1" "2024-01-01" [hRow 8]) ∧
    isValidationError (appendDay [] "u1" "2024-01-01" [hRow 8]) ∧
    isValidationError (upsertDayForUser [] "u2" "2024-01-01" [hRow 8]) := by
  have hInv : ceilingInvariant ([] : List Activity) := by
    intro u d
    norm_num [dayTotal, HOURS_PER_DAY, EPS]
  have h8 : HOURS_PER_DAY + EPS < sumHours [hRow 8] := by
    norm_num [sumHours, hRow, HOURS_PER_DAY, EPS]
  have happ : HOURS_PER_DAY + EPS
      < dayTotal ([] : List Activity) "u1" "2024-01-01" + sumHours [hRow 8] := by
    norm_num [sumHours, hRow, HOURS_PER_DAY, EPS, dayTotal]
  obtain ⟨-, -, -, hrej, hrejApp⟩ :=
    write_ops_preserve_daily_ceiling [] "u1" "2024-01-01" "u2" [hRow 8] hInv
  exact ⟨hInv, (hrej h8).1, hrejApp happ, (hrej h8).2⟩

/-! ### CSV cell sanitization

`/api/activities/export` and `/api/pm/export-range` map every cell
through `sanitizeCsvCell` (replace `;`→`,`, newlines→space, and prefix
a quote when the cell starts with `=`, `+`, `-` or `@`).  The
`/api/pm/export` route (lines 1442–1535) defines the same
`sanitizeCsvCell` but its line mapping applies only the inline
replacement WITHOUT the quote step — `pmExportCell` below. -/

/-- The character replacement shared by all CSV routes:
`.replaceAll(";", ",").replaceAll("\n", " ").replaceAll("\r", " ")`. -/
def csvReplaceChar (c : Char) : Char :=
  if c = ';' then ','
  else if c = '\n' then ' '
  else if c = '\r' then ' '
  else c

/-- The quote character `0x27` prepended by the sanitizer. -/
def quoteChar : Char := Char.ofNat 39

/-- `sanitizeCsvCell` as defined (and used) in `/api/activities/export`
and `/api/pm/export-range`. -/
def sanitizeCsvCell (s : String) : String :=
  match s.data.map csvReplaceChar with
  | [] => String.mk []
  | c :: cs =>
      if c = '=' ∨ c = '+' ∨ c = '-' ∨ c = '@'
      then String.mk (quoteChar :: c :: cs)
      else String.mk (c :: cs)

/-- The cell mapping actually used by the `/api/pm/export` line builder
(lines 1513–1518): only the character replacement, no quote step. -/
def pmExportCell (s : String) : String :=
  String.mk (s.data.map csvReplaceChar)

/-- C3: the claim says every CSV export route prefixes formula-leading
cells with a quote.  `/api/pm/export` does not: it defines
`sanitizeCsvCell` but maps cells with only the inline replacement, so a
cell `=SUM(A1)` is emitted verbatim, still starting with `=`, while the
sanitizer used by the other two CSV routes would quote it. -/
theorem pm_export_formula_cell_unsanitized :
    pmExportCell "=SUM(A1)" = "=SUM(A1)" ∧
    ("=SUM(A1)".data.head? = some (Char.ofNat 61)) ∧
    sanitizeCsvCell "=SUM(A1)" = String.mk (quoteChar :: "=SUM(A1)".data) := by
  refine ⟨?_, ?_, ?_⟩ <;> decide

/-- The sanitizer used by `/api/activities/export` and
`/api/pm/export-range` does quote every formula-leading cell. -/
theorem sanitizeCsvCell_quotes_formula_cells (s : String) (c : Char)
    (hc : (s.data.map csvReplaceChar).head? = some c)
    (hf : c = '=' ∨ c = '+' ∨ c = '-' ∨ c = '@') :
    (sanitizeCsvCell s).data.head? = some quoteChar := by
  unfold sanitizeCsvCell
  cases hd : s.data.map csvReplaceChar with
  | nil => rw [hd] at hc; cases hc
  | cons x xs =>
      rw [hd] at hc
      cases hc
      show (if c = '=' ∨ c = '+' ∨ c = '-' ∨ c = '@'
          then String.mk (quoteChar :: c :: xs)
          else String.mk (c :: xs)).data.head? = some quoteChar
      rw [if_pos hf]
      rfl

/-! ### The activity-type normalizer

`normalizeType` from `index.js` lines 136–241.  Unicode is modelled on
the precomposed (NFC) character set relevant to the tables:
`.normalize("NFC")` is the identity on such strings, `.toLowerCase()` is
a finite table over ASCII plus the accented letters used, and
`.normalize("NFD")` expands each precomposed letter of the table into
base + combining mark. -/

/-- Association-list lookup (the JS object-literal lookup `map[key]`). -/
def alookup {α β : Type} [DecidableEq α] : List (α × β) → α → Option β
  | [], _ => none
  | (k, v) :: t, x => if k = x then some v else alookup t x

/-- The zero-width characters stripped first: `[​-‍﻿]`. -/
def isZeroWidth (c : Char) : Bool :=
  (0x200B ≤ c.toNat && c.toNat ≤ 0x200D) || c.toNat == 0xFEFF

/-- Whitespace for `.trim()` and `\s` (the subset of JS whitespace
relevant here). -/
def isWhitespace (c : Char) : Bool :=
  c == ' ' || c == '\t' || c == '\n' || c == '\r' ||
  c.toNat == 0x0B || c.toNat == 0x0C || c.toNat == 0xA0

/-- `.trim()` on a character list. -/
def trimChars (l : List Char) : List Char :=
  ((l.dropWhile isWhitespace).reverse.dropWhile isWhitespace).reverse

/-- `.toLowerCase()` on the modelled character set. -/
def lowerTable : List (Char × Char) :=
  [('A','a'),('B','b'),('C','c'),('D','d'),('E','e'),('F','f'),('G','g'),
   ('H','h'),('I','i'),('J','j'),('K','k'),('L','l'),('M','m'),('N','n'),
   ('O','o'),('P','p'),('Q','q'),('R','r'),('S','s'),('T','t'),('U','u'),
   ('V','v'),('W','w'),('X','x'),('Y','y'),('Z','z'),
   ('É','é'),('È','è'),('Ê','ê'),('Ë','ë'),('À','à'),('Â','â'),('Ä','ä'),
   ('Î','î'),('Ï','ï'),('Ô','ô'),('Ö','ö'),('Ù','ù'),('Û','û'),('Ü','ü'),
   ('Ç','ç')]

def lowerC (c : Char) : Char := (alookup lowerTable c).getD c

/-- `.normalize("NFD")` decomposition of the modelled precomposed
letters: base character and combining mark (U+0300–U+036F). -/
def nfdTable : List (Char × (Char × Char)) :=
  [('é',('e', Char.ofNat 0x301)),('è',('e', Char.ofNat 0x300)),
   ('ê',('e', Char.ofNat 0x302)),('ë',('e', Char.ofNat 0x308)),
   ('à',('a', Char.ofNat 0x300)),('â',('a', Char.ofNat 0x302)),
   ('ä',('a', Char.ofNat 0x308)),
   ('î',('i', Char.ofNat 0x302)),('ï',('i', Char.ofNat 0x308)),
   ('ô',('o', Char.ofNat 0x302)),('ö',('o', Char.ofNat 0x308)),
   ('ù',('u', Char.ofNat 0x300)),('û',('u', Char.ofNat 0x302)),
   ('ü',('u', Char.ofNat 0x308)),('ç',('c', Char.ofNat 0x327)),
   ('É',('E', Char.ofNat 0x301)),('È',('E', Char.ofNat 0x300)),
   ('Ê',('E', Char.ofNat 0x302)),('Ë',('E', Char.ofNat 0x308)),
   ('À',('A', Char.ofNat 0x300)),('Â',('A', Char.ofNat 0x302)),
   ('Ä',('A', Char.ofNat 0x308)),
   ('Î',('I', Char.ofNat 0x302)),('Ï',('I', Char.ofNat 0x308)),
   ('Ô',('O', Char.ofNat 0x302)),('Ö',('O', Char.ofNat 0x308)),
   ('Ù',('U', Char.ofNat 0x300)),('Û',('U', Char.ofNat 0x302)),
   ('Ü',('U', Char.ofNat 0x308)),('Ç',('C', Char.ofNat 0x327))]

/-- NFD expansion of a single character. -/
def nfdChar (c : Char) : List Char :=
  match alookup nfdTable c with
  | some (b, m) => [b, m]
  | none => [c]

/-- Combining diacritical marks: `[̀-ͯ]`. -/
def isCombining (c : Char) : Bool := 0x300 ≤ c.toNat && c.toNat ≤ 0x36F

/-- Characters matched by `[_/]`. -/
def isUndSlash (c : Char) : Bool := c == '_' || c == '/'

/-- `.replace(/X+/g, repl)` for a character class `p`: every maximal run
of `p`-characters becomes one `repl`. -/
def collapseRunsGo (p : Char → Bool) (repl : Char) : Bool → List Char → List Char
  | _, [] => []
  | inRun, c :: cs =>
      if p c then
        if inRun then collapseRunsGo p repl true cs
        else repl :: collapseRunsGo p repl true cs
      else c :: collapseRunsGo p repl false cs

def collapseRuns (p : Char → Bool) (repl : Char) (l : List Char) : List Char :=
  collapseRunsGo p repl false l

/-- The `simplified` pipeline of `normalizeType`:
`.toLowerCase().normalize("NFD").replace(/[̀-ͯ]/g,"")
.replace(/[_\/]+/g," ").replace(/\s+/g," ").trim()`. -/
def simplifyChars (s0 : List Char) : List Char :=
  trimChars (collapseRuns isWhitespace ' ' (collapseRuns isUndSlash ' '
    (((s0.map lowerC).flatMap nfdChar).filter (fun c => !(isCombining c)))))

/-- `s0` of `normalizeType`: strip zero-width characters, trim
(`.normalize("NFC")` modelled as the identity on precomposed input). -/
def toS0 (s : String) : List Char :=
  trimChars (s.data.filter (fun c => !(isZeroWidth c)))

/-- The `ActivityType` enumeration from `index.js`. -/
def ActivityType : List String :=
  ["Travail", "Réunion", "Support", "Projet", "Congés", "Alternance",
   "Week-end", "Autre", "Evol", "Ano", "Incident Applicatif", "Non défini"]

/-- The synonym table (`map`) of `normalizeType`, keys already
simplified. -/
def synonymMap : List (String × String) :=
  [("travail","Travail"),("dev","Travail"),("developpement","Travail"),
   ("developper","Travail"),("dev sur","Travail"),
   ("reunion","Réunion"),("meeting","Réunion"),("daily","Réunion"),
   ("point","Réunion"),("sync","Réunion"),
   ("support","Support"),("assistance","Support"),("debug","Support"),
   ("bug","Support"),("correction","Support"),
   ("incident","Incident Applicatif"),
   ("incident applicatif","Incident Applicatif"),
   ("incident appli","Incident Applicatif"),
   ("incident application","Incident Applicatif"),
   ("projet","Projet"),("project","Projet"),
   ("evol","Evol"),("evolution","Evol"),("evolution technique","Evol"),
   ("feature","Evol"),
   ("ano","Ano"),("anomalie","Ano"),("anomalies","Ano"),
   ("ticket non defini","Non défini"),("non defini","Non défini"),
   ("ticket","Non défini"),
   ("conge","Congés"),("conges","Congés"),("cp","Congés"),
   ("vacances","Congés"),
   ("alternance","Alternance"),("ecole","Alternance"),("cfa","Alternance"),
   ("cours","Alternance"),("formation","Alternance"),
   ("formation ia","Alternance"),
   ("weekend","Week-end"),("week end","Week-end"),("week-end","Week-end"),
   ("we","Week-end"),
   ("autre","Autre"),("divers","Autre")]

/-- A JS value as produced by `normalizeType`: normally a string, but
`map[simplified]` on the plain object literal `map` can also yield a
non-string value inherited from `Object.prototype` (e.g.
`map["constructor"]` is the `Object` constructor function). -/
inductive JsValue where
  | str (s : String)
  | inheritedObject
deriving DecidableEq, Repr

/-- The property names a plain JS object literal inherits from
`Object.prototype`; reading any of them yields a non-string value. -/
def protoProps : List String :=
  ["constructor", "hasOwnProperty", "isPrototypeOf", "propertyIsEnumerable",
   "toLocaleString", "toString", "valueOf", "__proto__", "__defineGetter__",
   "__defineSetter__", "__lookupGetter__", "__lookupSetter__"]

/-- JS bracket lookup `obj[key]` on an object literal: own property
first, then the `Object.prototype` chain, else `undefined` (`none`). -/
def objectGet (own : List (String × String)) (key : String) : Option JsValue :=
  match alookup own key with
  | some v => some (JsValue.str v)
  | none => if key ∈ protoProps then some JsValue.inheritedObject else none

/-- `normalizeType` from `index.js`: exact enumeration members pass
through unchanged; otherwise `map[simplified] ?? "Autre"` — the `??`
falls back only on `undefined`/`null`, so inherited `Object.prototype`
values pass through (the JS local `s0` is written inline as `toS0 s`). -/
def normalizeType (s : String) : JsValue :=
  if String.mk (toS0 s) ∈ ActivityType then JsValue.str (String.mk (toS0 s))
  else (objectGet synonymMap (String.mk (simplifyChars (toS0 s)))).getD
    (JsValue.str "Autre")

/-! ### Lemmas about the normalizer -/

theorem alookup_mem {α β : Type} [DecidableEq α] {l : List (α × β)} {x : α} {v : β}
    (h : alookup l x = some v) : (x, v) ∈ l := by
  induction l with
  | nil => cases h
  | cons p t ih =>
      obtain ⟨k, w⟩ := p
      unfold alookup at h
      split at h
      · rename_i hk
        injection h with h2
        subst h2
        subst hk
        exact List.mem_cons_self _ _
      · exact List.mem_cons_of_mem _ (ih h)

theorem alookup_eq_none {α β : Type} [DecidableEq α] {l : List (α × β)} {x : α}
    (h : ∀ p ∈ l, p.1 ≠ x) : alookup l x = none := by
  induction l with
  | nil => rfl
  | cons p t ih =>
      obtain ⟨k, w⟩ := p
      unfold alookup
      rw [if_neg (h (k, w) (List.mem_cons_self _ _))]
      exact ih (fun q hq => h q (List.mem_cons_of_mem _ hq))

/-- The base (accent-stripped) character of a modelled letter. -/
def baseChar (c : Char) : Char :=
  match alookup nfdTable c with
  | some (b, _) => b
  | none => c

/-- Case- and diacritic-folding of one character: lowercase, then strip
the accent. -/
def foldChar (c : Char) : Char := baseChar (lowerC c)

/-- Every value `foldChar` can produce other than its own input. -/
def foldOutputs : List Char := "abcdefghijklmnopqrstuvwxyzEAIOUC".data

theorem foldChar_eq_self_of_none {c : Char}
    (h1 : alookup lowerTable c = none) (h2 : alookup nfdTable c = none) :
    foldChar c = c := by
  unfold foldChar lowerC baseChar
  rw [h1]
  show (match alookup nfdTable c with
        | some (b, _) => b
        | none => c) = c
  rw [h2]

theorem foldChar_cases (c : Char) : foldChar c = c ∨ foldChar c ∈ foldOutputs := by
  unfold foldChar lowerC
  cases hl : alookup lowerTable c with
  | some v =>
      right
      have hv := alookup_mem hl
      have key : ∀ p ∈ lowerTable, baseChar p.2 ∈ foldOutputs := by decide
      simpa using key _ hv
  | none =>
      unfold baseChar
      cases hn : alookup nfdTable c with
      | some bm =>
          right
          have hv := alookup_mem hn
          have key2 : ∀ p ∈ nfdTable, p.2.1 ∈ foldOutputs := by decide
          obtain ⟨b, m⟩ := bm
          simpa [hn] using key2 _ hv
      | none => left; simp [hn]

/-- A character class that avoids both table key sets and all fold
outputs is invariant under `foldChar`. -/
theorem foldChar_pred_invariant (P : Char → Bool)
    (hkl : ∀ p ∈ lowerTable, P p.1 = false)
    (hkn : ∀ p ∈ nfdTable, P p.1 = false)
    (hout : ∀ x ∈ foldOutputs, P x = false) (c : Char) :
    P (foldChar c) = P c := by
  by_cases hc : P c = true
  · have h1 : alookup lowerTable c = none := by
      refine alookup_eq_none (fun p hp he => ?_)
      have hf := hkl p hp
      rw [he, hc] at hf
      cases hf
    have h2 : alookup nfdTable c = none := by
      refine alookup_eq_none (fun p hp he => ?_)
      have hf := hkn p hp
      rw [he, hc] at hf
      cases hf
    rw [foldChar_eq_self_of_none h1 h2]
  · have hcf : P c = false := by
      revert hc
      cases P c <;> simp
    rcases foldChar_cases c with he | hm
    · rw [he]
    · rw [hout _ hm, hcf]

theorem fold_filter_congr (P : Char → Bool) (hP : ∀ c, P (foldChar c) = P c) :
    ∀ (xs ys : List Char), xs.map foldChar = ys.map foldChar →
      ((xs.filter fun c => !(P c)).map foldChar
        = (ys.filter fun c => !(P c)).map foldChar) := by
  intro xs
  induction xs with
  | nil =>
      intro ys h
      cases ys with
      | nil => rfl
      | cons y yt => cases h
  | cons x xt ih =>
      intro ys h
      cases ys with
      | nil => cases h
      | cons y yt =>
          injection h with h1 h2
          have hxy : P x = P y := by rw [← hP x, h1, hP y]
          rw [List.filter_cons, List.filter_cons]
          by_cases hp : P x = true
          · rw [hp] at hxy
            simp only [hp, ← hxy, Bool.not_true, if_neg]
            exact ih yt h2
          · have hpx : P x = false := by revert hp; cases P x <;> simp
            rw [hpx] at hxy
            simp only [hpx, ← hxy, Bool.not_false, if_pos, List.map_cons]
            rw [h1, ih yt h2]

theorem fold_dropWhile_congr (P : Char → Bool) (hP : ∀ c, P (foldChar c) = P c) :
    ∀ (xs ys : List Char), xs.map foldChar = ys.map foldChar →
      ((xs.dropWhile P).map foldChar = (ys.dropWhile P).map foldChar) := by
  intro xs
  induction xs with
  | nil =>
      intro ys h
      cases ys with
      | nil => rfl
      | cons y yt => cases h
  | cons x xt ih =>
      intro ys h
      cases ys with
      | nil => cases h
      | cons y yt =>
          injection h with h1 h2
          have hxy : P x = P y := by rw [← hP x, h1, hP y]
          rw [List.dropWhile_cons, List.dropWhile_cons]
          by_cases hp : P x = true
          · rw [hp] at hxy
            rw [hp, ← hxy]
            simp only [if_pos]
            exact ih yt h2
          · have hpx : P x = false := by revert hp; cases P x <;> simp
            rw [hpx] at hxy
            rw [hpx, ← hxy]
            simp only [Bool.false_eq_true, if_false, List.map_cons, h1, h2]

theorem fold_trim_congr {xs ys : List Char}
    (hP : ∀ c, isWhitespace (foldChar c) = isWhitespace c)
    (h : xs.map foldChar = ys.map foldChar) :
    (trimChars xs).map foldChar = (trimChars ys).map foldChar := by
  unfold trimChars
  have h1 := fold_dropWhile_congr isWhitespace hP xs ys h
  have h2 : (xs.dropWhile isWhitespace).reverse.map foldChar
      = (ys.dropWhile isWhitespace).reverse.map foldChar := by
    rw [List.map_reverse, List.map_reverse, h1]
  have h3 := fold_dropWhile_congr isWhitespace hP _ _ h2
  rw [List.map_reverse, List.map_reverse, h3]

/-- The per-character effect of lowercasing, NFD expansion and
combining-mark removal. -/
def charSimp (c : Char) : List Char :=
  (nfdChar (lowerC c)).filter (fun x => !(isCombining x))

theorem pipeline_flatMap (l : List Char) :
    ((l.map lowerC).flatMap nfdChar).filter (fun c => !(isCombining c))
      = l.flatMap charSimp := by
  induction l with
  | nil => rfl
  | cons c t ih =>
      simp only [List.map_cons, List.flatMap_cons, List.filter_append, ih, charSimp]

theorem charSimp_eq_fold (c : Char) :
    charSimp c = if isCombining (foldChar c) = true then [] else [foldChar c] := by
  unfold charSimp foldChar nfdChar baseChar
  cases hn : alookup nfdTable (lowerC c) with
  | some bm =>
      obtain ⟨b, m⟩ := bm
      have hv := alookup_mem hn
      have hb : isCombining b = false :=
        (show ∀ p ∈ nfdTable, isCombining p.2.1 = false by decide) _ hv
      have hm : isCombining m = true :=
        (show ∀ p ∈ nfdTable, isCombining p.2.2 = true by decide) _ hv
      simp [List.filter, hb, hm]
  | none =>
      by_cases hcomb : isCombining (lowerC c) = true
      · simp [List.filter, hcomb]
      · have hf : isCombining (lowerC c) = false := by
          revert hcomb; cases isCombining (lowerC c) <;> simp
        simp [List.filter, hf]

theorem charSimp_congr {c d : Char} (h : foldChar c = foldChar d) :
    charSimp c = charSimp d := by
  rw [charSimp_eq_fold, charSimp_eq_fold, h]

theorem fold_flatMap_charSimp :
    ∀ (xs ys : List Char), xs.map foldChar = ys.map foldChar →
      xs.flatMap charSimp = ys.flatMap charSimp := by
  intro xs
  induction xs with
  | nil =>
      intro ys h
      cases ys with
      | nil => rfl
      | cons y yt => cases h
  | cons x xt ih =>
      intro ys h
      cases ys with
      | nil => cases h
      | cons y yt =>
          injection h with h1 h2
          simp only [List.flatMap_cons]
          rw [charSimp_congr h1, ih yt h2]

theorem simplifyChars_congr {xs ys : List Char}
    (h : xs.map foldChar = ys.map foldChar) :
    simplifyChars xs = simplifyChars ys := by
  unfold simplifyChars
  rw [pipeline_flatMap, pipeline_flatMap, fold_flatMap_charSimp xs ys h]

theorem fold_isWhitespace_invariant (c : Char) :
    isWhitespace (foldChar c) = isWhitespace c :=
  foldChar_pred_invariant isWhitespace (by decide) (by decide) (by decide) c

theorem fold_isZeroWidth_invariant (c : Char) :
    isZeroWidth (foldChar c) = isZeroWidth c :=
  foldChar_pred_invariant isZeroWidth (by decide) (by decide) (by decide) c

theorem toS0_fold_congr {s t : String}
    (h : s.data.map foldChar = t.data.map foldChar) :
    (toS0 s).map foldChar = (toS0 t).map foldChar := by
  unfold toS0
  exact fold_trim_congr fold_isWhitespace_invariant
    (fold_filter_congr isZeroWidth fold_isZeroWidth_invariant _ _ h)

/-- `normalizeType` always agrees with the synonym lookup of the
simplified string: every enumeration member's simplified form maps back
to that member in the table. -/
theorem normalizeType_eq_lookup (s : String) :
    normalizeType s
      = (objectGet synonymMap (String.mk (simplifyChars (toS0 s)))).getD
          (JsValue.str "Autre") := by
  unfold normalizeType
  split
  · rename_i hmem
    have key : ∀ m ∈ ActivityType,
        alookup synonymMap (String.mk (simplifyChars m.data)) = some m := by decide
    have h2 := key _ hmem
    rw [show (String.mk (toS0 s)).data = toS0 s from rfl] at h2
    unfold objectGet
    rw [h2]
    rfl
  · rfl

/-- C6: the claim says `normalizeType` is total — every input string
maps to a member of the enumeration, never a value outside it.  The
code violates this: the synonym table is a plain object literal, so
`map["constructor"] ?? "Autre"` returns the inherited
`Object.prototype.constructor` function — not a string and not an
enumeration member.  `"constructor"` is the only reachable inherited
key (simplification lowercases and strips underscores, ruling out
`toString`, `__proto__`, etc.), and away from it the intended totality
does hold, with the empty string mapping to `"Autre"`. -/
theorem normalizeType_prototype_leak :
    normalizeType "constructor" = JsValue.inheritedObject ∧
    (¬ ∃ v, v ∈ ActivityType ∧ normalizeType "constructor" = JsValue.str v) ∧
    (∀ s : String, String.mk (simplifyChars (toS0 s)) ∉ protoProps →
      ∃ v, v ∈ ActivityType ∧ normalizeType s = JsValue.str v) ∧
    normalizeType "" = JsValue.str "Autre" := by
  refine ⟨by decide, by decide, ?_, by decide⟩
  intro s hs
  rw [normalizeType_eq_lookup]
  unfold objectGet
  cases h : alookup synonymMap (String.mk (simplifyChars (toS0 s))) with
  | none =>
      refine ⟨"Autre", by decide, ?_⟩
      rw [if_neg hs]
      rfl
  | some v =>
      have hv := alookup_mem h
      have key : ∀ p ∈ synonymMap, p.2 ∈ ActivityType := by decide
      exact ⟨v, key _ hv, rfl⟩

/-- Witness for `normalizeType_prototype_leak`: `"anomalie"` simplifies
away from the prototype keys and yields the member `"Ano"`. -/
theorem normalizeType_prototype_leak_witness :
    (String.mk (simplifyChars (toS0 "anomalie")) ∉ protoProps) ∧
    (∃ v, v ∈ ActivityType ∧ normalizeType "anomalie" = JsValue.str v) := by
  have h : String.mk (simplifyChars (toS0 "anomalie")) ∉ protoProps := by decide
  exact ⟨h, normalizeType_prototype_leak.2.2.1 "anomalie" h⟩

/-- Two strings differ only by letter case and/or diacritics when they
fold to the same character sequence. -/
def caseDiacriticEq (s t : String) : Prop :=
  s.data.map foldChar = t.data.map foldChar

/-- C7: strings that differ only by case and/or diacritics normalize to
the same canonical value. -/
theorem normalizeType_case_diacritic_invariant (s t : String)
    (h : caseDiacriticEq s t) : normalizeType s = normalizeType t := by
  rw [normalizeType_eq_lookup, normalizeType_eq_lookup,
      simplifyChars_congr (toS0_fold_congr h)]

/-- Witness for `normalizeType_case_diacritic_invariant`:
`"Réunion"` and `"REUNION"` differ only by case/diacritics and
normalize identically. -/
theorem normalizeType_case_diacritic_invariant_witness :
    caseDiacriticEq "Réunion" "REUNION" ∧
    normalizeType "Réunion" = normalizeType "REUNION" := by
  have h : caseDiacriticEq "Réunion" "REUNION" := by
    unfold caseDiacriticEq
    decide
  exact ⟨h, normalizeType_case_diacritic_invariant _ _ h⟩

/-! ### The month view

`GET /api/activities/month` (`index.js` lines 875–928) aggregates one
`(day, totalHours, linesCount)` item per calendar day; the client's
`buildMonthDaysFromAggregatedDays` (`Activity.vue` lines 339–375) turns
that payload into one status-tagged cell per day.  The spec's
`buildMonthView` is their composition. -/

/-- Generic JS-`Map.set`: replace the value at an existing key in
place, otherwise append. -/
def amapSet {β : Type} : List (String × β) → String → β → List (String × β)
  | [], k, v => [(k, v)]
  | (k2, w) :: t, k, v =>
      if k2 = k then (k2, v) :: t else (k2, w) :: amapSet t k v

/-- Lexicographic string comparison — the database's ordering on the
`YYYY-MM-DD` day column used by `.gte`/`.lte`. -/
def strLeAux : List Char → List Char → Bool
  | [], _ => true
  | _ :: _, [] => false
  | a :: as, b :: bs =>
      if a.toNat < b.toNat then true
      else if b.toNat < a.toNat then false
      else strLeAux as bs

def strLe (a b : String) : Bool := strLeAux a.data b.data

/-- Gregorian leap year, as implemented by JS `Date`. -/
def isLeapYear (y : ℕ) : Bool :=
  (y % 4 == 0 && !(y % 100 == 0)) || y % 400 == 0

/-- `new Date(year, month, 0).getDate()` for `1 ≤ month ≤ 12`. -/
def daysInMonth (y m : ℕ) : ℕ :=
  if m = 2 then (if isLeapYear y then 29 else 28)
  else if m = 4 ∨ m = 6 ∨ m = 9 ∨ m = 11 then 30
  else 31

def pad2 (n : ℕ) : String := if n < 10 then "0" ++ toString n else toString n

/-- The `YYYY-MM-DD` string of a date — `toISOString().slice(0, 10)` on
the server, the manual `toYYYYMMDD` on the client. -/
def fmtDate (y m d : ℕ) : String :=
  toString y ++ "-" ++ pad2 m ++ "-" ++ pad2 d

/-- JS `Date.prototype.getDay` (0 = Sunday … 6 = Saturday), via
Zeller's congruence. -/
def jsGetDay (y m d : ℕ) : ℕ :=
  (d + (13 * ((if m < 3 then m + 12 else m) + 1)) / 5
     + (if m < 3 then y - 1 else y) % 100
     + ((if m < 3 then y - 1 else y) % 100) / 4
     + ((if m < 3 then y - 1 else y) / 100) / 4
     + 5 * ((if m < 3 then y - 1 else y) / 100) + 6) % 7

/-- `isWeekendDate` from `Activity.vue`: Sunday or Saturday. -/
def isWeekendDate (y m d : ℕ) : Bool :=
  jsGetDay y m d == 0 || jsGetDay y m d == 6

/-- One item of the server month payload. -/
structure ServerDayAgg where
  day : String
  totalHours : ℚ
  linesCount : ℕ
deriving DecidableEq, Repr

/-- The server's per-day aggregation map (`map.set(k, prev)` loop). -/
def monthAggMap (acts : List Activity) : List (String × ℚ × ℕ) :=
  acts.foldl
    (fun mp a =>
      amapSet mp a.day
        (((alookup mp a.day).getD ((0:ℚ), (0:ℕ))).1 + a.temps_passe_h,
         ((alookup mp a.day).getD ((0:ℚ), (0:ℕ))).2 + 1))
    []

/-- The `.gte("day", startStr).lte("day", endStr)` range filter of the
month route. -/
def monthEntries (y m : ℕ) (entries : List Activity) : List Activity :=
  entries.filter
    (fun a => strLe (fmtDate y m 1) a.day && strLe a.day (fmtDate y m (daysInMonth y m)))

/-- The server month payload: one `(day, totalHours, linesCount)` per
calendar day, hours rounded to 1 decimal, gaps filled with zeros. -/
def serverMonthDays (y m : ℕ) (entries : List Activity) : List ServerDayAgg :=
  (List.range (daysInMonth y m)).map (fun i =>
    ⟨fmtDate y m (i+1),
     round1 ((alookup (monthAggMap (monthEntries y m entries)) (fmtDate y m (i+1))).getD
       ((0:ℚ), (0:ℕ))).1,
     ((alookup (monthAggMap (monthEntries y m entries)) (fmtDate y m (i+1))).getD
       ((0:ℚ), (0:ℕ))).2⟩)

inductive MonthDayStatus
  | weekend
  | filled
  | empty
deriving DecidableEq, Repr

/-- One client month cell (the display-only `weekdayLabel` field is
omitted). -/
structure MonthDayItem where
  day : String
  dayNumber : ℕ
  isWeekend : Bool
  status : MonthDayStatus
  totalHours : ℚ
  linesCount : ℕ
deriving DecidableEq, Repr

/-- The client's `map` of payload days. -/
def clientDayMap (days : List ServerDayAgg) : List (String × ℚ × ℕ) :=
  days.foldl (fun mp c => amapSet mp c.day (c.totalHours, c.linesCount)) []

/-- One cell of `buildMonthDaysFromAggregatedDays`: status is `weekend`
on Saturday/Sunday, else `filled` iff the aggregated `linesCount` is
positive; hours re-rounded to 1 decimal (`Number(total.toFixed(1))`). -/
def mkClientCell (y m d : ℕ) (agg : Option (ℚ × ℕ)) : MonthDayItem :=
  { day := fmtDate y m d
    dayNumber := d
    isWeekend := isWeekendDate y m d
    status :=
      if isWeekendDate y m d then MonthDayStatus.weekend
      else if 0 < (agg.getD ((0:ℚ), (0:ℕ))).2 then MonthDayStatus.filled
      else MonthDayStatus.empty
    totalHours := round1 (agg.getD ((0:ℚ), (0:ℕ))).1
    linesCount := (agg.getD ((0:ℚ), (0:ℕ))).2 }

/-- `buildMonthDaysFromAggregatedDays(year, month, payload)` from
`Activity.vue`. -/
def buildMonthDaysFromAggregatedDays (y m : ℕ) (payloadDays : List ServerDayAgg) :
    List MonthDayItem :=
  (List.range (daysInMonth y m)).map (fun i =>
    mkClientCell y m (i+1) (alookup (clientDayMap payloadDays) (fmtDate y m (i+1))))

/-- The spec's `buildMonthView(year, month, entries)`: the server month
aggregation composed with the client cell builder. -/
def buildMonthView (y m : ℕ) (entries : List Activity) : List MonthDayItem :=
  buildMonthDaysFromAggregatedDays y m (serverMonthDays y m entries)

/-! ### Month-view lemmas -/

theorem round1_zero : round1 0 = 0 := by
  unfold round1 jsRound
  norm_num

theorem amapSet_vals {β : Type} {z : β} :
    ∀ (mp : List (String × β)) (k : String) (v : β),
      (∀ p ∈ mp, p.2 = z) → v = z → ∀ p ∈ amapSet mp k v, p.2 = z := by
  intro mp
  induction mp with
  | nil =>
      intro k v _ hv p hp
      rcases List.mem_cons.1 hp with rfl | hp
      · exact hv
      · cases hp
  | cons q t ih =>
      intro k v hmp hv p hp
      obtain ⟨k2, w⟩ := q
      unfold amapSet at hp
      split at hp
      · rcases List.mem_cons.1 hp with rfl | hp
        · exact hv
        · exact hmp _ (List.mem_cons_of_mem _ hp)
      · rcases List.mem_cons.1 hp with rfl | hp
        · exact hmp _ (List.mem_cons_self _ _)
        · exact ih k v (fun q hq => hmp q (List.mem_cons_of_mem _ hq)) hv p hp

theorem clientDayMap_vals {days : List ServerDayAgg}
    (hdays : ∀ c ∈ days, c.totalHours = 0 ∧ c.linesCount = 0) :
    ∀ p ∈ clientDayMap days, p.2 = ((0:ℚ), (0:ℕ)) := by
  unfold clientDayMap
  suffices h : ∀ (ds : List ServerDayAgg) (mp : List (String × ℚ × ℕ)),
      (∀ c ∈ ds, c.totalHours = 0 ∧ c.linesCount = 0) →
      (∀ p ∈ mp, p.2 = ((0:ℚ), (0:ℕ))) →
      ∀ p ∈ ds.foldl (fun mp c => amapSet mp c.day (c.totalHours, c.linesCount)) mp,
        p.2 = ((0:ℚ), (0:ℕ)) by
    exact h days [] hdays (fun p hp => absurd hp (List.not_mem_nil _))
  intro ds
  induction ds with
  | nil => intro mp _ hmp; exact hmp
  | cons c t ih =>
      intro mp hds hmp
      rw [List.foldl_cons]
      refine ih _ (fun x hx => hds x (List.mem_cons_of_mem _ hx)) ?_
      refine amapSet_vals mp c.day _ hmp ?_
      have := hds c (List.mem_cons_self _ _)
      rw [this.1, this.2]

theorem serverMonthDays_empty_vals (y m : ℕ) :
    ∀ c ∈ serverMonthDays y m [], c.totalHours = 0 ∧ c.linesCount = 0 := by
  intro c hc
  unfold serverMonthDays at hc
  rcases List.mem_map.1 hc with ⟨i, _, rfl⟩
  refine ⟨?_, rfl⟩
  exact round1_zero

/-- C8: the month view has exactly one cell per calendar day, in
ascending date order (cell `i` carries day number `i+1` and the
`YYYY-MM-DD` string of that day); with no entries every cell has
`totalHours = 0`, `linesCount = 0` and status `weekend` or `empty`,
never `filled`; and `buildMonthView 2024 2 []` has exactly 29 cells
(2024 is a leap year). -/
theorem buildMonthView_spec (y m : ℕ) (entries : List Activity)
    (_hm1 : 1 ≤ m) (_hm2 : m ≤ 12) :
    ((buildMonthView y m entries).length = daysInMonth y m) ∧
    (∀ i (hi : i < (buildMonthView y m entries).length),
      ((buildMonthView y m entries).get ⟨i, hi⟩).dayNumber = i + 1 ∧
      ((buildMonthView y m entries).get ⟨i, hi⟩).day = fmtDate y m (i+1)) ∧
    (∀ cell ∈ buildMonthView y m [],
      cell.totalHours = 0 ∧ cell.linesCount = 0 ∧
      cell.status ≠ MonthDayStatus.filled ∧
      (cell.status = MonthDayStatus.weekend ∨ cell.status = MonthDayStatus.empty)) ∧
    (buildMonthView 2024 2 []).length = 29 := by
  refine ⟨?_, ?_, ?_, by decide⟩
  · unfold buildMonthView buildMonthDaysFromAggregatedDays
    rw [List.length_map, List.length_range]
  · intro i hi
    unfold buildMonthView buildMonthDaysFromAggregatedDays at hi ⊢
    constructor <;>
      simp [List.get_eq_getElem, List.getElem_map, mkClientCell,
        List.getElem_range]
  · intro cell hcell
    unfold buildMonthView buildMonthDaysFromAggregatedDays at hcell
    rcases List.mem_map.1 hcell with ⟨i, _, rfl⟩
    have hvals := clientDayMap_vals (serverMonthDays_empty_vals y m)
    have hagg : ((alookup (clientDayMap (serverMonthDays y m []))
        (fmtDate y m (i+1))).getD ((0:ℚ), (0:ℕ))) = ((0:ℚ), (0:ℕ)) := by
      cases halk : alookup (clientDayMap (serverMonthDays y m [])) (fmtDate y m (i+1)) with
      | none => rfl
      | some v =>
          have := hvals _ (alookup_mem halk)
          simpa [Option.getD] using this
    have hstatus : (mkClientCell y m (i+1)
        (alookup (clientDayMap (serverMonthDays y m [])) (fmtDate y m (i+1)))).status
        = (if isWeekendDate y m (i+1) then MonthDayStatus.weekend
           else MonthDayStatus.empty) := by
      show (if isWeekendDate y m (i+1) then MonthDayStatus.weekend
        else if 0 < ((alookup (clientDayMap (serverMonthDays y m []))
            (fmtDate y m (i+1))).getD ((0:ℚ), (0:ℕ))).2 then MonthDayStatus.filled
        else MonthDayStatus.empty) = _
      rw [hagg]
      by_cases hw : isWeekendDate y m (i+1) = true
      · rw [if_pos hw, if_pos hw]
      · rw [if_neg hw, if_neg hw, if_neg (by norm_num)]
    refine ⟨?_, ?_, ?_, ?_⟩
    · show round1 ((alookup _ _).getD ((0:ℚ), (0:ℕ))).1 = 0
      rw [hagg]
      exact round1_zero
    · show ((alookup _ _).getD ((0:ℚ), (0:ℕ))).2 = 0
      rw [hagg]
    · rw [hstatus]
      by_cases hw : isWeekendDate y m (i+1) = true
      · rw [if_pos hw]; intro h; cases h
      · rw [if_neg hw]; intro h; cases h
    · rw [hstatus]
      by_cases hw : isWeekendDate y m (i+1) = true
      · left; rw [if_pos hw]
      · right; rw [if_neg hw]

/-- Witness for `buildMonthView_spec` at February 2024 with no
entries. -/
theorem buildMonthView_spec_witness :
    (1 ≤ 2) ∧ (2 ≤ 12) ∧ (buildMonthView 2024 2 []).length = daysInMonth 2024 2 := by
  exact ⟨by decide, by decide,
    (buildMonthView_spec 2024 2 [] (by decide) (by decide)).1⟩

/-! ### The completion calculator

`GET /api/pm/completion` (`index.js` lines 1257–1310): seed one
accumulator per profile, fold the in-range activities into it, render
one row per profile.  The JS `Set` of filled days is modelled as a
duplicate-free insertion-ordered list. -/

/-- One row of the `profiles` table. -/
structure Profile where
  id : String
  full_name : String
  role : String
deriving DecidableEq, Repr

/-- The per-user accumulator (`{days, hours, name, role}`). -/
structure CompletionStat where
  days : List String
  hours : ℚ
  name : String
  role : String
deriving DecidableEq, Repr

/-- One element of the route's `users` response array. -/
structure CompletionRow where
  userId : String
  name : String
  role : String
  filledDays : ℕ
  totalHours : ℚ
deriving DecidableEq, Repr

/-- `st.days.add(a.day)`: JS `Set.add` — append if absent. -/
def addDayToSet (days : List String) (d : String) : List String :=
  if d ∈ days then days else days ++ [d]

/-- `st.days.add(a.day); st.hours += Number(a.temps_passe_h || 0)`. -/
def updF (st : CompletionStat) (a : Activity) : CompletionStat :=
  { st with days := addDayToSet st.days a.day,
            hours := st.hours + a.temps_passe_h }

/-- The seeded accumulator of one profile
(`name: prof.full_name || prof.id`). -/
def initStat (p : Profile) : CompletionStat :=
  ⟨[], 0, if p.full_name = "" then p.id else p.full_name, p.role⟩

/-- The seeding loop `for (const prof of profiles) map.set(prof.id, …)`. -/
def seedCompletion (profiles : List Profile) : List (String × CompletionStat) :=
  profiles.foldl (fun mp p => amapSet mp p.id (initStat p)) []

/-- One iteration of `for (const a of acts)`: skip activities of
unknown users, otherwise update that user's accumulator in place. -/
def applyAct (mp : List (String × CompletionStat)) (a : Activity) :
    List (String × CompletionStat) :=
  match alookup mp a.user_id with
  | none => mp
  | some st => amapSet mp a.user_id (updF st a)

/-- The `.gte("day", from).lte("day", to)` range filter. -/
def inRange (dFrom dTo : String) (a : Activity) : Bool :=
  strLe dFrom a.day && strLe a.day dTo

/-- Render one accumulator into a response row
(`totalHours: Math.round(st.hours * 10) / 10`). -/
def renderRow (p : String × CompletionStat) : CompletionRow :=
  ⟨p.1, p.2.name, p.2.role, p.2.days.length, round1 p.2.hours⟩

/-- The spec's `computeCompletion(profiles, entries, from, to)`. -/
def computeCompletion (profiles : List Profile) (acts : List Activity)
    (dFrom dTo : String) : List CompletionRow :=
  ((acts.filter (inRange dFrom dTo)).foldl applyAct (seedCompletion profiles)).map
    renderRow

/-- Specification-side count of distinct filled days of one user. -/
def specFilledDays (acts : List Activity) (dFrom dTo : String) (uid : String) : ℕ :=
  (((acts.filter (inRange dFrom dTo)).filter
    (fun a => a.user_id = uid)).map Activity.day).dedup.length

/-- Specification-side total hours of one user, rounded to 1 decimal. -/
def specTotalHours (acts : List Activity) (dFrom dTo : String) (uid : String) : ℚ :=
  round1 ((((acts.filter (inRange dFrom dTo)).filter
    (fun a => a.user_id = uid)).map Activity.temps_passe_h).sum)

/-! ### Completion lemmas -/

theorem amapSet_append {β : Type} :
    ∀ (mp : List (String × β)) (k : String) (v : β),
      (∀ p ∈ mp, p.1 ≠ k) → amapSet mp k v = mp ++ [(k, v)] := by
  intro mp
  induction mp with
  | nil => intro k v _; rfl
  | cons q t ih =>
      intro k v h
      obtain ⟨k2, w⟩ := q
      unfold amapSet
      rw [if_neg (h (k2, w) (List.mem_cons_self _ _))]
      rw [ih k v (fun p hp => h p (List.mem_cons_of_mem _ hp))]
      rfl

theorem seedCompletion_eq_map (profiles : List Profile)
    (hnd : (profiles.map Profile.id).Nodup) :
    seedCompletion profiles = profiles.map (fun p => (p.id, initStat p)) := by
  unfold seedCompletion
  suffices h : ∀ (ps : List Profile) (acc : List (String × CompletionStat)),
      (ps.map Profile.id).Nodup →
      (∀ p ∈ ps, ∀ q ∈ acc, q.1 ≠ p.id) →
      ps.foldl (fun mp p => amapSet mp p.id (initStat p)) acc
        = acc ++ ps.map (fun p => (p.id, initStat p)) by
    simpa using h profiles [] hnd (fun p _ q hq => absurd hq (List.not_mem_nil q))
  intro ps
  induction ps with
  | nil => intro acc _ _; simp
  | cons p pt ih =>
      intro acc hnd2 hacc
      rw [List.foldl_cons,
        amapSet_append acc p.id _ (fun q hq => hacc p (List.mem_cons_self _ _) q hq)]
      rw [ih (acc ++ [(p.id, initStat p)]) ?nodup ?fresh]
      · simp
      case nodup =>
        rw [List.map_cons, List.nodup_cons] at hnd2
        exact hnd2.2
      case fresh =>
        intro p2 hp2 q hq
        rcases List.mem_append.1 hq with hq | hq
        · exact hacc p2 (List.mem_cons_of_mem _ hp2) q hq
        · rcases List.mem_cons.1 hq with rfl | hq
          · rw [List.map_cons, List.nodup_cons] at hnd2
            intro he
            have he2 : p.id = p2.id := he
            apply hnd2.1
            rw [he2]
            exact List.mem_map_of_mem Profile.id hp2
          · cases hq

theorem alookup_map_none_iff (F : Profile → CompletionStat) :
    ∀ (ps : List Profile) (u : String),
      alookup (ps.map fun p => (p.id, F p)) u = none ↔ ∀ p ∈ ps, p.id ≠ u := by
  intro ps
  induction ps with
  | nil =>
      intro u
      constructor
      · intro _ p hp; cases hp
      · intro _; rfl
  | cons p pt ih =>
      intro u
      rw [List.map_cons]
      unfold alookup
      by_cases h : p.id = u
      · rw [if_pos h]
        constructor
        · intro hc; cases hc
        · intro hall; exact absurd h (hall p (List.mem_cons_self _ _))
      · rw [if_neg h, ih u]
        constructor
        · intro hall q hq
          rcases List.mem_cons.1 hq with rfl | hq
          · exact h
          · exact hall q hq
        · intro hall q hq; exact hall q (List.mem_cons_of_mem _ hq)

theorem applyAct_of_none {mp : List (String × CompletionStat)} {a : Activity}
    (h : alookup mp a.user_id = none) : applyAct mp a = mp := by
  unfold applyAct
  rw [h]

theorem applyAct_of_some {mp : List (String × CompletionStat)} {a : Activity}
    {st : CompletionStat} (h : alookup mp a.user_id = some st) :
    applyAct mp a = amapSet mp a.user_id (updF st a) := by
  unfold applyAct
  rw [h]

theorem applyAct_map :
    ∀ (profiles : List Profile), (profiles.map Profile.id).Nodup →
      ∀ (F : Profile → CompletionStat) (a : Activity),
      applyAct (profiles.map fun p => (p.id, F p)) a
        = profiles.map fun p =>
            (p.id, if p.id = a.user_id then updF (F p) a else F p) := by
  intro profiles
  induction profiles with
  | nil => intro _ F a; rfl
  | cons p pt ih =>
      intro hnd F a
      rw [List.map_cons, List.nodup_cons] at hnd
      by_cases h : p.id = a.user_id
      · -- head key matches the activity
        have hsc : alookup ((p.id, F p) :: pt.map fun q => (q.id, F q)) a.user_id
            = some (F p) := by
          unfold alookup; rw [if_pos h]
        rw [List.map_cons, applyAct_of_some hsc]
        unfold amapSet
        rw [if_pos h, List.map_cons, if_pos h]
        congr 1
        refine (List.map_congr_left ?_).symm
        intro q hq
        have hqne : ¬ (q.id = a.user_id) := by
          rw [← h]
          intro he
          apply hnd.1
          rw [← he]
          exact List.mem_map_of_mem Profile.id hq
        rw [if_neg hqne]
      · -- head key does not match: recurse into the tail
        cases halk : alookup (pt.map fun q => (q.id, F q)) a.user_id with
        | none =>
            have hsc : alookup ((p.id, F p) :: pt.map fun q => (q.id, F q))
                a.user_id = none := by
              unfold alookup; rw [if_neg h]; exact halk
            rw [List.map_cons, applyAct_of_none hsc, List.map_cons, if_neg h]
            congr 1
            refine (List.map_congr_left ?_).symm
            intro q hq
            rw [if_neg ((alookup_map_none_iff F pt a.user_id).1 halk q hq)]
        | some st =>
            have hsc : alookup ((p.id, F p) :: pt.map fun q => (q.id, F q))
                a.user_id = some st := by
              unfold alookup; rw [if_neg h]; exact halk
            rw [List.map_cons, applyAct_of_some hsc]
            unfold amapSet
            rw [if_neg h, List.map_cons, if_neg h]
            congr 1
            have ihh := ih hnd.2 F a
            rw [applyAct_of_some halk] at ihh
            exact ihh

theorem foldl_applyAct_map (profiles : List Profile)
    (hnd : (profiles.map Profile.id).Nodup) :
    ∀ (acts2 : List Activity) (F : Profile → CompletionStat),
      acts2.foldl applyAct (profiles.map fun p => (p.id, F p))
        = profiles.map fun p =>
            (p.id, acts2.foldl
              (fun st a => if p.id = a.user_id then updF st a else st) (F p)) := by
  intro acts2
  induction acts2 with
  | nil => intro F; rfl
  | cons a rest ih =>
      intro F
      rw [List.foldl_cons, applyAct_map profiles hnd F a,
        ih (fun p => if p.id = a.user_id then updF (F p) a else F p)]
      rfl

theorem foldl_step_filter (uid : String) :
    ∀ (acts2 : List Activity) (st : CompletionStat),
      acts2.foldl (fun st a => if uid = a.user_id then updF st a else st) st
        = (acts2.filter (fun a => a.user_id = uid)).foldl updF st := by
  intro acts2
  induction acts2 with
  | nil => intro st; rfl
  | cons a rest ih =>
      intro st
      rw [List.foldl_cons, List.filter_cons]
      by_cases h : uid = a.user_id
      · rw [if_pos h]
        have hd : decide (a.user_id = uid) = true := by
          rw [decide_eq_true_eq]; exact h.symm
        rw [hd]
        show (rest.foldl _ (updF st a)) = List.foldl updF st (a :: _)
        rw [List.foldl_cons]
        exact ih (updF st a)
      · rw [if_neg h]
        have hd : decide (a.user_id = uid) = false := by
          rw [decide_eq_false_iff_not]
          intro he
          exact h he.symm
        rw [hd]
        show (rest.foldl _ st) = List.foldl updF st _
        exact ih st

theorem foldl_updF_days :
    ∀ (l : List Activity) (st : CompletionStat),
      (l.foldl updF st).days = (l.map Activity.day).foldl addDayToSet st.days := by
  intro l
  induction l with
  | nil => intro st; rfl
  | cons a rest ih =>
      intro st
      rw [List.foldl_cons, List.map_cons, List.foldl_cons, ih]
      rfl

theorem foldl_updF_hours :
    ∀ (l : List Activity) (st : CompletionStat),
      (l.foldl updF st).hours = st.hours + (l.map Activity.temps_passe_h).sum := by
  intro l
  induction l with
  | nil => intro st; simp
  | cons a rest ih =>
      intro st
      rw [List.foldl_cons, ih, List.map_cons, List.sum_cons]
      show st.hours + a.temps_passe_h + _ = _
      ring

theorem foldl_updF_name_role :
    ∀ (l : List Activity) (st : CompletionStat),
      (l.foldl updF st).name = st.name ∧ (l.foldl updF st).role = st.role := by
  intro l
  induction l with
  | nil => intro st; exact ⟨rfl, rfl⟩
  | cons a rest ih =>
      intro st
      rw [List.foldl_cons]
      exact ih (updF st a)

theorem mem_addDayToSet {days : List String} {d x : String} :
    x ∈ addDayToSet days d ↔ x ∈ days ∨ x = d := by
  unfold addDayToSet
  by_cases h : d ∈ days
  · rw [if_pos h]
    constructor
    · exact Or.inl
    · rintro (hx | rfl)
      · exact hx
      · exact h
  · rw [if_neg h]
    simp [List.mem_append]

theorem nodup_addDayToSet {days : List String} (h : days.Nodup) (d : String) :
    (addDayToSet days d).Nodup := by
  unfold addDayToSet
  by_cases hd : d ∈ days
  · rw [if_pos hd]; exact h
  · rw [if_neg hd]
    simp [List.nodup_append, h, hd]

theorem foldl_addDayToSet_mem :
    ∀ (l : List String) (ds : List String) (x : String),
      x ∈ l.foldl addDayToSet ds ↔ x ∈ ds ∨ x ∈ l := by
  intro l
  induction l with
  | nil => intro ds x; simp
  | cons d rest ih =>
      intro ds x
      rw [List.foldl_cons, ih, mem_addDayToSet]
      constructor
      · rintro ((hx | rfl) | hx)
        · exact Or.inl hx
        · exact Or.inr (List.mem_cons_self _ _)
        · exact Or.inr (List.mem_cons_of_mem _ hx)
      · rintro (hx | hx)
        · exact Or.inl (Or.inl hx)
        · rcases List.mem_cons.1 hx with rfl | hx
          · exact Or.inl (Or.inr rfl)
          · exact Or.inr hx

theorem foldl_addDayToSet_nodup :
    ∀ (l : List String) (ds : List String), ds.Nodup →
      (l.foldl addDayToSet ds).Nodup := by
  intro l
  induction l with
  | nil => intro ds h; exact h
  | cons d rest ih =>
      intro ds h
      rw [List.foldl_cons]
      exact ih _ (nodup_addDayToSet h d)

/-- The JS `Set`'s size equals the number of distinct elements. -/
theorem foldl_addDayToSet_length (l : List String) :
    (l.foldl addDayToSet []).length = l.dedup.length := by
  have h1 : (l.foldl addDayToSet []).Nodup :=
    foldl_addDayToSet_nodup l [] List.nodup_nil
  have h2 : l.dedup.Nodup := l.nodup_dedup
  have hperm : List.Perm (l.foldl addDayToSet []) l.dedup := by
    rw [List.perm_ext_iff_of_nodup h1 h2]
    intro x
    rw [foldl_addDayToSet_mem, List.mem_dedup]
    simp
  exact hperm.length_eq

/-- C9: `computeCompletion` returns one row per profile (in profile
order, so zero-entry profiles appear, with `filledDays = 0` by
`specFilledDays`); each row's `filledDays` counts that user's distinct
in-range days and `totalHours` is that user's in-range hour sum rounded
to one decimal; and the spec's concrete scenario holds. -/
theorem computeCompletion_spec (profiles : List Profile) (acts : List Activity)
    (dFrom dTo : String) (hnd : (profiles.map Profile.id).Nodup) :
    ((computeCompletion profiles acts dFrom dTo).length = profiles.length) ∧
    (∀ i (hi : i < profiles.length)
        (hi2 : i < (computeCompletion profiles acts dFrom dTo).length),
      ((computeCompletion profiles acts dFrom dTo).get ⟨i, hi2⟩).userId
          = (profiles.get ⟨i, hi⟩).id ∧
      ((computeCompletion profiles acts dFrom dTo).get ⟨i, hi2⟩).filledDays
          = specFilledDays acts dFrom dTo (profiles.get ⟨i, hi⟩).id ∧
      ((computeCompletion profiles acts dFrom dTo).get ⟨i, hi2⟩).totalHours
          = specTotalHours acts dFrom dTo (profiles.get ⟨i, hi⟩).id) ∧
    (computeCompletion [⟨"u1","",""⟩]
      [⟨"u1","2024-03-01",5⟩, ⟨"u1","2024-03-01",2⟩] "2024-03-01" "2024-03-31"
      = [⟨"u1","u1","",1,7⟩]) := by
  have hmain : computeCompletion profiles acts dFrom dTo
      = profiles.map (fun p => renderRow (p.id,
          ((acts.filter (inRange dFrom dTo)).filter
            (fun a => a.user_id = p.id)).foldl updF (initStat p))) := by
    unfold computeCompletion
    rw [seedCompletion_eq_map profiles hnd,
      foldl_applyAct_map profiles hnd _ initStat, List.map_map]
    refine List.map_congr_left ?_
    intro p _
    show renderRow (p.id, _) = renderRow (p.id, _)
    rw [foldl_step_filter p.id]
  refine ⟨?_, ?_, ?_⟩
  · rw [hmain, List.length_map]
  · intro i hi hi2
    have hget : (computeCompletion profiles acts dFrom dTo).get ⟨i, hi2⟩
        = renderRow ((profiles.get ⟨i, hi⟩).id,
            ((acts.filter (inRange dFrom dTo)).filter
              (fun a => a.user_id = (profiles.get ⟨i, hi⟩).id)).foldl updF
              (initStat (profiles.get ⟨i, hi⟩))) := by
      simp only [hmain, List.get_eq_getElem, List.getElem_map]
    refine ⟨?_, ?_, ?_⟩
    · rw [hget]; rfl
    · rw [hget]
      show (((acts.filter (inRange dFrom dTo)).filter
          (fun a => a.user_id = (profiles.get ⟨i, hi⟩).id)).foldl updF
          (initStat (profiles.get ⟨i, hi⟩))).days.length = _
      rw [foldl_updF_days,
        show (initStat (profiles.get ⟨i, hi⟩)).days = [] from rfl]
      unfold specFilledDays
      exact foldl_addDayToSet_length _
    · rw [hget]
      show round1 (((acts.filter (inRange dFrom dTo)).filter
          (fun a => a.user_id = (profiles.get ⟨i, hi⟩).id)).foldl updF
          (initStat (profiles.get ⟨i, hi⟩))).hours = _
      rw [foldl_updF_hours]
      unfold specTotalHours
      rw [show (initStat (profiles.get ⟨i, hi⟩)).hours = 0 from rfl, zero_add]
  · have ha1 : inRange "2024-03-01" "2024-03-31"
        (⟨"u1","2024-03-01",5⟩ : Activity) = true := by decide
    have ha2 : inRange "2024-03-01" "2024-03-31"
        (⟨"u1","2024-03-01",2⟩ : Activity) = true := by decide
    norm_num [computeCompletion, seedCompletion, applyAct, ha1, ha2,
      List.filter_cons, List.filter_nil,
      amapSet, alookup, updF, initStat, addDayToSet, renderRow, round1, jsRound,
      CompletionRow.mk.injEq]

/-- Witness for `computeCompletion_spec` at the spec's scenario input. -/
theorem computeCompletion_spec_witness :
    (([(⟨"u1","",""⟩ : Profile)].map Profile.id).Nodup) ∧
    (computeCompletion [⟨"u1","",""⟩]
      [⟨"u1","2024-03-01",5⟩, ⟨"u1","2024-03-01",2⟩] "2024-03-01" "2024-03-31").length
      = 1 := by
  have hnd : (([(⟨"u1","",""⟩ : Profile)].map Profile.id).Nodup) := by decide
  exact ⟨hnd, (computeCompletion_spec [⟨"u1","",""⟩]
    [⟨"u1","2024-03-01",5⟩, ⟨"u1","2024-03-01",2⟩] "2024-03-01" "2024-03-31" hnd).1⟩

end ActivityAI

/-! ### Concrete sanity checks of the embedding (spec section 8 examples
and real-calendar spot checks). -/

section sanity
open ActivityAI
example : computeCompletion [⟨"u1","",""⟩]
    [⟨"u1","2024-03-01",5⟩, ⟨"u1","2024-03-01",2⟩] "2024-03-01" "2024-03-31"
    = [⟨"u1","u1","",1,7⟩] := by
  have ha1 : inRange "2024-03-01" "2024-03-31" (⟨"u1","2024-03-01",5⟩ : Activity) = true := by
    decide
  have ha2 : inRange "2024-03-01" "2024-03-31" (⟨"u1","2024-03-01",2⟩ : Activity) = true := by
    decide
  norm_num [computeCompletion, seedCompletion, applyAct, ha1, ha2,
    List.filter_cons, List.filter_nil,
    amapSet, alookup, updF, initStat, addDayToSet, renderRow, round1, jsRound,
    CompletionRow.mk.injEq]
example : daysInMonth 2024 2 = 29 := by decide
example : daysInMonth 2023 2 = 28 := by decide
example : daysInMonth 2100 2 = 28 := by decide
example : daysInMonth 2000 2 = 29 := by decide
-- 2024-02-03 was a Saturday, 2024-03-01 a Friday, 2024-02-04 a Sunday
example : jsGetDay 2024 2 3 = 6 := by decide
example : jsGetDay 2024 3 1 = 5 := by decide
example : jsGetDay 2024 2 4 = 0 := by decide
example : jsGetDay 2026 10 11 = 0 := by decide
example : fmtDate 2024 2 3 = "2024-02-03" := by decide
example : (buildMonthView 2024 2 []).length = 29 := by decide
example : strLe "2024-02-01" "2024-02-10" = true := by decide
example : normalizeType "Ano" = .str "Ano" := by decide
example : normalizeType "anomalie" = .str "Ano" := by decide
example : normalizeType "ANOMALIES" = .str "Ano" := by decide
example : normalizeType "" = .str "Autre" := by decide
example : normalizeType "  Réunion " = .str "Réunion" := by decide
example : normalizeType "REUNION" = .str "Réunion" := by decide
example : normalizeType "dev_sur" = .str "Travail" := by decide
example : normalizeType "gibberish xyz" = .str "Autre" := by decide
example : normalizeType "Week-end" = .str "Week-end" := by decide
-- the prototype leak, also via a case variant; underscores are
-- simplified away so __proto__ and friends are unreachable
example : normalizeType "Constructor" = .inheritedObject := by decide
example : normalizeType "toString" = .str "Autre" := by decide
example : normalizeType "__proto__" = .str "Autre" := by decide
end sanity
